import Mathlib

/-!
Verification of the `list-gen-bot` MediaWiki bot (`src/list-gen-bot.py`).

The bot is a line-oriented text processor.  We embed it shallowly:

* a document line is a `List Char` (Python lines never contain `'\n'`,
  since they come from `str.split('\n')`);
* a document text is a `List Char` that may contain `'\n'`;
* the external document store is a function `List Char → List Char`
  from page titles to page texts;
* each Python regex of the source is compiled (by hand, following the
  leftmost / greedy backtracking semantics of `re`) into structurally
  recursive search functions over character lists.

Python peculiarities that the source relies on are modelled exactly:
`str.split('\n')` of the empty string is `[""]`; `del l[None:]` deletes
every element; `0` is falsy in `elif start and ...`; `re.sub` scans
left to right and resumes after the end of the previous match.
-/

/-- Convert a string literal to the character-list representation used
throughout this development. -/
def s2c (s : String) : List Char :=
  s.data

/-- `dropLit lit s` strips the literal `lit` from the front of `s`
(`some rest` on success, `none` otherwise).  This models matching a
literal piece of a regex at the current position. -/
def dropLit : List Char → List Char → Option (List Char)
  | [], s => some s
  | _ :: _, [] => none
  | c :: cs, d :: ds => if c = d then dropLit cs ds else none

/-- Split `l` as `a ++ b` at the EARLIEST position whose suffix `b`
satisfies `P`.  This models a regex engine searching left to right for
the first position where the rest of the pattern matches. -/
def splitFirstSuf (P : List Char → Bool) : List Char → Option (List Char × List Char)
  | [] => if P [] then some ([], []) else none
  | c :: cs =>
    if P (c :: cs) then some ([], c :: cs)
    else
      match splitFirstSuf P cs with
      | some (a, b) => some (c :: a, b)
      | none => none

/-- Split `l` as `a ++ b` at the LATEST position whose suffix `b`
satisfies `P`.  This models a greedy `.*` that hands back as little as
possible to the rest of the pattern. -/
def splitLastSuf (P : List Char → Bool) : List Char → Option (List Char × List Char)
  | [] => if P [] then some ([], []) else none
  | c :: cs =>
    match splitLastSuf P cs with
    | some (a, b) => some (c :: a, b)
    | none => if P (c :: cs) then some ([], c :: cs) else none

/-- Split a list of lines around the FIRST element satisfying `P`. -/
def splitFirstSat {α : Type} (P : α → Bool) : List α → Option (List α × α × List α)
  | [] => none
  | x :: xs =>
    if P x then some ([], x, xs)
    else
      match splitFirstSat P xs with
      | some (a, y, b) => some (x :: a, y, b)
      | none => none

/-- Split a list of lines around the LAST element satisfying `P`. -/
def splitLastSat {α : Type} (P : α → Bool) : List α → Option (List α × α × List α)
  | [] => none
  | x :: xs =>
    match splitLastSat P xs with
    | some (a, y, b) => some (x :: a, y, b)
    | none => if P x then some ([], x, xs) else none

/-- `hasSub lit s`: does `lit` occur as a contiguous substring of `s`?
Models `re.search` for a regex that is a plain literal. -/
def hasSub (lit : List Char) (s : List Char) : Bool :=
  (splitFirstSuf (fun t => (dropLit lit t).isSome) s).isSome

/-- Python `text.split('\n')`: always at least one piece, pieces are
free of `'\n'`. -/
def splitNl : List Char → List (List Char)
  | [] => [[]]
  | c :: rest =>
    if c = '\n' then [] :: splitNl rest
    else
      match splitNl rest with
      | [] => [[c]]
      | h :: t => (c :: h) :: t

/-- Python `'\n'.join(lines)`. -/
def joinNl : List (List Char) → List Char
  | [] => []
  | [l] => l
  | l :: l' :: t => l ++ '\n' :: joinNl (l' :: t)

/-! ### The literal fragments of the source's four regexes

`list_content_start = \{\{ListGenBot-SourceStart\|(.+)\}\}`
`list_content_end   = \{\{ListGenBot-SourceEnd\}\}`
`list_render_template =
   (\{\{ListGenBot-List(.*)Start\|(.+)\}\})(?:.*\n)+.*(\{\{ListGenBot-List(.*)End\}\})`
`title_search = ^(=+)([^=]*)(=+)[ ]?$`
-/

/-- The literal `{{ListGenBot-List` shared by the render open and close
markers. -/
def renderLit : List Char :=
  ['{', '{', 'L', 'i', 's', 't', 'G', 'e', 'n', 'B', 'o', 't', '-', 'L', 'i', 's', 't']

/-- The literal `Start|` of the render open marker. -/
def startSep : List Char :=
  ['S', 't', 'a', 'r', 't', '|']

/-- The literal `}}`. -/
def rb2 : List Char :=
  ['}', '}']

/-- The literal `End}}` of the render close marker. -/
def endTag : List Char :=
  ['E', 'n', 'd', '}', '}']

/-- The literal `{{ListGenBot-SourceStart|`. -/
def srcStartLit : List Char :=
  ['{', '{', 'L', 'i', 's', 't', 'G', 'e', 'n', 'B', 'o', 't', '-', 'S', 'o', 'u', 'r',
   'c', 'e', 'S', 't', 'a', 'r', 't', '|']

/-- The literal `{{ListGenBot-SourceEnd}}`. -/
def srcEndLit : List Char :=
  ['{', '{', 'L', 'i', 's', 't', 'G', 'e', 'n', 'B', 'o', 't', '-', 'S', 'o', 'u', 'r',
   'c', 'e', 'E', 'n', 'd', '}', '}']

/-- `_find_title` / `title_search.search(line)`: the anchored regex
`^(=+)([^=]*)(=+)[ ]?$` matches the whole line (the line holds no
newline): one or more `=`, a `=`-free middle, one or more `=`, and at
most one optional trailing space. -/
def find_title (line : List Char) : Bool :=
  let cs : List Char :=
    match line.getLast? with
    | some ' ' => line.dropLast
    | _ => line
  let p := cs.takeWhile (· = '=')
  let rest := cs.drop p.length
  if p.isEmpty then false
  else if rest.isEmpty then decide (2 ≤ p.length)
  else
    let s := (cs.reverse.takeWhile (· = '=')).length
    let mid := rest.take (rest.length - s)
    decide (1 ≤ s) && mid.all (· ≠ '=')

/-- `_find_list_content_end`: `list_content_end.search(line) is not None`,
i.e. the line contains the literal end marker. -/
def find_list_content_end (line : List Char) : Bool :=
  hasSub srcEndLit line

/-- Greedy `(.+)\}\}` tail: splits `s` as `y ++ "}}" ++ z` with the
group `y` as long as possible (the last `}}` occurrence) and nonempty. -/
def g3Split (s : List Char) : Option (List Char × List Char) :=
  match splitLastSuf (fun t => (dropLit rb2 t).isSome) s with
  | some (y, b) =>
    match dropLit rb2 b with
    | some z => if y.isEmpty then none else some (y, z)
    | none => none
  | none => none

/-- `_find_list_content_start`: leftmost occurrence of the literal
`{{ListGenBot-SourceStart|` that is completed in the line by the greedy
`(.+)\}\}`; returns the captured list name. -/
def find_list_content_start (line : List Char) : Option (List Char) :=
  match splitFirstSuf
      (fun t =>
        match dropLit srcStartLit t with
        | some u => (g3Split u).isSome
        | none => false) line with
  | some (_, b) =>
    match dropLit srcStartLit b with
    | some u =>
      match g3Split u with
      | some (y, _) => some y
      | none => none
    | none => none
  | none => none

/-- Validity of the suffix that follows a candidate mode group `g2` in
the open marker: `Start|` then the greedy `(.+)\}\}`. -/
def startValid (s : List Char) : Bool :=
  match dropLit startSep s with
  | some t => (g3Split t).isSome
  | none => false

/-- Greedy `(.*)Start\|(.+)\}\}` after the open literal: the mode group
is as long as possible (latest viable `Start|`), then the list name group
is as long as possible. -/
def g2Split (s : List Char) : Option (List Char × List Char × List Char) :=
  match splitLastSuf startValid s with
  | some (x, b) =>
    match dropLit startSep b with
    | some t =>
      match g3Split t with
      | some (y, z) => some (x, y, z)
      | none => none
    | none => none
  | none => none

/-- Does a full open marker `{{ListGenBot-List(.*)Start\|(.+)\}\}` match
at the head of `s`? -/
def openValid (s : List Char) : Bool :=
  match dropLit renderLit s with
  | some t => (g2Split t).isSome
  | none => false

/-- Leftmost open-marker occurrence in a line, with its capture groups:
`some (before, mode, listName, rest)` decomposes the line as
`before ++ "{{ListGenBot-List" ++ mode ++ "Start|" ++ listName ++ "}}" ++ rest`. -/
def openParse (line : List Char) : Option (List Char × List Char × List Char × List Char) :=
  match splitFirstSuf openValid line with
  | some (a, b) =>
    match dropLit renderLit b with
    | some t =>
      match g2Split t with
      | some (x, y, z) => some (a, x, y, z)
      | none => none
    | none => none
  | none => none

/-- Does a full close marker `{{ListGenBot-List(.*)End\}\}` match at the
head of `s`? -/
def endValid (s : List Char) : Bool :=
  match dropLit renderLit s with
  | some t =>
    match splitLastSuf (fun u => (dropLit endTag u).isSome) t with
    | some _ => true
    | none => false
  | none => false

/-- Rightmost close-marker occurrence in a line (the `.*` that precedes
the close literal in the pattern is greedy), with the mode group as long
as possible: `some (before, mode, after)` decomposes the line as
`before ++ "{{ListGenBot-List" ++ mode ++ "End}}" ++ after`. -/
def closeParse (line : List Char) : Option (List Char × List Char × List Char) :=
  match splitLastSuf endValid line with
  | some (a, b) =>
    match dropLit renderLit b with
    | some t =>
      match splitLastSuf (fun u => (dropLit endTag u).isSome) t with
      | some (w, u) =>
        match dropLit endTag u with
        | some z => some (a, w, z)
        | none => none
      | none => none
    | none => none
  | none => none

/-- A line contains an open-marker occurrence. -/
def openOcc (line : List Char) : Bool :=
  (openParse line).isSome

/-- A line contains a close-marker occurrence. -/
def closeOcc (line : List Char) : Bool :=
  (closeParse line).isSome

/-- One match of `list_render_template` against a document, in line
form.  `(?:.*\n)+` forces the close marker onto a strictly later line
than the open marker; greediness selects the LAST line holding a close
occurrence, and the leftmost full match then starts at the FIRST open
occurrence on an earlier line.  The matched span runs from the start of
the open marker to the end of the close marker, so `openRest`,
`midLines` and `closePre` are consumed by the match (and discarded by a
substitution), while `openPre` and `closeSuf` stay outside it. -/
structure RMatch where
  preLines : List (List Char)
  openPre : List Char
  g2 : List Char
  g3 : List Char
  openRest : List Char
  midLines : List (List Char)
  closePre : List Char
  g5 : List Char
  closeSuf : List Char
  postLines : List (List Char)
deriving DecidableEq

/-- Find the leftmost (hence unique, see above) match of
`list_render_template` in a document given as lines. -/
def findMatch (lines : List (List Char)) : Option RMatch :=
  match splitLastSat closeOcc lines with
  | none => none
  | some (beforeC, closeLine, post) =>
    match splitFirstSat openOcc beforeC with
    | none => none
    | some (pre, openLine, mid) =>
      match openParse openLine, closeParse closeLine with
      | some (a, x, y, r), some (cp, w, cs) =>
        some ⟨pre, a, x, y, r, mid, cp, w, cs, post⟩
      | _, _ => none

/-- Python `line.strip('=')`: remove leading and trailing `=` runs. -/
def strip_eq (l : List Char) : List Char :=
  ((l.dropWhile (· = '=')).reverse.dropWhile (· = '=')).reverse

/-- The `Sectioned` per-line transform of `_render_list`:
`line if not title else f"===([[{line.strip('=')}]])==="`. -/
def sectionedXform (l : List Char) : List Char :=
  if find_title l then s2c "===([[" ++ strip_eq l ++ s2c "]])==="
  else l

/-- Python string `<` (lexicographic by code point). -/
def lexLt : List Char → List Char → Bool
  | [], [] => false
  | [], _ :: _ => true
  | _ :: _, [] => false
  | a :: as_, b :: bs => if a < b then true else if b < a then false else lexLt as_ bs

/-- Insert into a sorted list (used to model Python `sorted`; for a list
of strings the sorted result is the unique sorted rearrangement, so any
correct sort agrees with Python's). -/
def insertLex (x : List Char) : List (List Char) → List (List Char)
  | [] => [x]
  | y :: ys => if lexLt x y then x :: y :: ys else y :: insertLex x ys

/-- Python `sorted` on a list of strings. -/
def sortLex (ls : List (List Char)) : List (List Char) :=
  ls.foldr insertLex []

/-- `_get_page_text`: load a page and split its text into lines. -/
def get_page_text (store : List Char → List Char) (name : List Char) : List (List Char) :=
  splitNl (store name)

/-- The body computed by `_render_list` (its `page_lines` variable) for
matching modes: `Sectioned` rewrites heading lines, `Alphabetical`
drops heading lines and sorts, anything else yields no lines. -/
def render_list_body (store : List Char → List Char) (g2 g3 : List Char) :
    List (List Char) :=
  if g2 == s2c "Sectioned" then
    (get_page_text store (s2c "ListGenBot " ++ g3)).map sectionedXform
  else if g2 == s2c "Alphabetical" then
    sortLex ((get_page_text store (s2c "ListGenBot " ++ g3)).filter (fun l => !find_title l))
  else []

/-- Reconstruct the full open marker (capture group 1). -/
def g1Of (m : RMatch) : List Char :=
  renderLit ++ m.g2 ++ startSep ++ m.g3 ++ rb2

/-- Reconstruct the full close marker (capture group 4). -/
def g4Of (m : RMatch) : List Char :=
  renderLit ++ m.g5 ++ endTag

/-- The lines strictly between the open and close marker in the
replacement `f'{beginning_text}\n{list_text}\n{ending_text}'` produced
by `_render_list`: when `Mode != Mode2` the body is empty (`page_lines`
stays `[]`), and joining an empty list gives one empty line. -/
def replMid (store : List Char → List Char) (m : RMatch) : List (List Char) :=
  let pl := if m.g2 == m.g5 then render_list_body store m.g2 m.g3 else []
  if pl.isEmpty then [[]] else pl

/-- `list_render_template.sub(repl=self._render_list, string=...)` on a
document in line form: find a match, splice in the replacement, and
resume scanning after the end of the match (`fuel` bounds the number of
substitutions; each match spans at least two input lines, so
`length + 1` fuel at top level is never exhausted). -/
def renderGo (store : List Char → List Char) : Nat → List (List Char) → List (List Char)
  | 0, ls => ls
  | fuel + 1, ls =>
    match findMatch ls with
    | none => ls
    | some m =>
      let rest := renderGo store fuel (m.closeSuf :: m.postLines)
      let restM :=
        match rest with
        | [] => [g4Of m]
        | r0 :: rt => (g4Of m ++ r0) :: rt
      m.preLines ++ (m.openPre ++ g1Of m) :: (replMid store m ++ restM)

/-- The render pass over a document given as lines. -/
def renderLines (store : List Char → List Char) (ls : List (List Char)) :
    List (List Char) :=
  renderGo store (ls.length + 1) ls

/-- The render pass over a document text: the `new_text` computed by
`main_function` from a page text, given the current store snapshot. -/
def renderText (store : List Char → List Char) (t : List Char) : List Char :=
  joinNl (renderLines store (splitNl t))

/-! ### PageScanner: the loop of `main_function` over `page_lines` -/

/-- One extracted content block: list name and accumulated lines. -/
abbrev Block := List Char × List (List Char)

/-- The scanning loop of `main_function` (lines 130-150): state is
`(in_list, list_content)`; an end marker emits a block and resets; a
heading line inside a block is skipped; any other line inside a block is
appended; outside a block, only a start marker changes the state.  An
open block left at end of input is discarded. -/
def scanB : Option (List Char) × List (List Char) → List (List Char) → List Block
  | _, [] => []
  | (some name, acc), line :: rest =>
    if find_list_content_end line then (name, acc) :: scanB (none, []) rest
    else if find_title line then scanB (some name, acc) rest
    else scanB (some name, acc ++ [line]) rest
  | (none, _), line :: rest => scanB (find_list_content_start line, []) rest

/-- The final scanner state after consuming some lines. -/
def scanStateB : Option (List Char) × List (List Char) → List (List Char) →
    Option (List Char) × List (List Char)
  | st, [] => st
  | (some name, acc), line :: rest =>
    if find_list_content_end line then scanStateB (none, []) rest
    else if find_title line then scanStateB (some name, acc) rest
    else scanStateB (some name, acc ++ [line]) rest
  | (none, _), line :: rest => scanStateB (find_list_content_start line, []) rest

/-- Scan a whole document (initial state: outside any block, empty
accumulator). -/
def scanDocument (lines : List (List Char)) : List Block :=
  scanB (none, []) lines

/-! ### ListAggregator: `_add_to_list` -/

/-- Python `del l[a:b]` for `a ≤ b` (the only way it is reached here). -/
def delSlice {α : Type} (l : List α) (a b : Nat) : List α :=
  l.take a ++ l.drop (max a b)

/-- The section-locating loop of `_add_to_list` (lines 240-248).
Python's `elif start and self._find_title(line)` treats both `None` and
the index `0` as falsy, so the loop can only record an `end` once a
NONZERO start index has been seen; a line equal to the section heading
always just updates `start`. -/
def sectionScan (sect : List Char) : Nat → Option Nat → List (List Char) →
    Option Nat × Option Nat
  | _, start, [] => (start, none)
  | i, start, line :: rest =>
    if line == sect then sectionScan sect (i + 1) (some i) rest
    else if (match start with | some s => decide (s ≠ 0) | none => false)
        && find_title line then (start, some (i - 1))
    else sectionScan sect (i + 1) start rest

/-- `_add_to_list(content, section, ...)` acting on the loaded aggregate
lines.  Deletion step: `del page_lines[start:end+1]` when both indices
were found; otherwise, when `end is None`, `del page_lines[start:]` -
and if `start` is `None` that Python slice is `[None:]`, which deletes
EVERY line.  The unreachable combination (`end` found, `start` not)
takes neither branch.  Then non-empty new content is appended as
heading plus lines. -/
def add_to_list (content : List (List Char)) (sectionTitle : List Char)
    (pageLines : List (List Char)) : List (List Char) :=
  let sect := ['=', '='] ++ sectionTitle ++ ['=', '=']
  let se := sectionScan sect 0 none pageLines
  let afterDel :=
    match se.1, se.2 with
    | some s, some e => delSlice pageLines s (e + 1)
    | some s, none => pageLines.take s
    | none, none => []
    | none, some _ => pageLines
  if content.isEmpty then afterDel else afterDel ++ sect :: content

/-- `_add_to_list` at the text level (the aggregate page is loaded with
`split('\n')` and stored with `'\n'.join`). -/
def add_to_list_text (content : List (List Char)) (sectionTitle : List Char)
    (aggText : List Char) : List Char :=
  joinNl (add_to_list content sectionTitle (splitNl aggText))

/-! ### `main_function` rendering step and `run` cursor update -/

/-- Lines 152-161 of the source: the page object's text is ASSIGNED the
rendered text BEFORE the dirty check `if page.text != new_text`, so the
check compares `new_text` with itself.  Returns the page object's final
text and whether `page.save('Render lists')` runs. -/
def main_render_step (store : List Char → List Char) (title : List Char) :
    List Char × Bool :=
  let pageText := store title
  let newText := renderText store pageText
  let pageText2 := newText
  (pageText2, pageText2 != newText)

/-- The batch size constant `PAGES_TO_GO_THROUGH`. -/
def PAGES_TO_GO_THROUGH : Nat := 25

/-- The cursor value written by `run` (lines 107-122): `last_page_seen`
starts as the empty string and is overwritten by each title in turn;
fewer than `PAGES_TO_GO_THROUGH` titles resets the cursor to the empty
string, otherwise the last title seen is stored. -/
def run_cursor (titles : List (List Char)) : List Char :=
  let last_page_seen := titles.foldl (fun _ t => t) []
  if titles.length < PAGES_TO_GO_THROUGH then [] else last_page_seen

/-! ### Sanity checks of the embedding against observed Python behaviour -/

/-- Open marker builder for examples. -/
def mkOpen (m n : List Char) : List Char :=
  renderLit ++ m ++ startSep ++ n ++ rb2

/-- Close marker builder for examples. -/
def mkClose (m : List Char) : List Char :=
  renderLit ++ m ++ endTag

/-- Example store: aggregate pages `ListGenBot A` and `ListGenBot B`. -/
def exStore : List Char → List Char :=
  fun name =>
    if name == s2c "ListGenBot A" then
      joinNl [s2c "==T==", s2c "banana", s2c "apple", s2c "==U==", s2c "cherry"]
    else if name == s2c "ListGenBot B" then joinNl [s2c "b1", s2c "b2"]
    else []

example : find_title (s2c "==") = true := by decide
example : find_title (s2c "=") = false := by decide
example : find_title (s2c "==a== ") = true := by decide
example : find_title (s2c "==a==  ") = false := by decide
example : find_title (s2c "== ==") = true := by decide
example : find_title (s2c "==a=b==") = false := by decide
example : find_title (s2c "==a== =") = false := by decide
example : find_title (s2c " ==a==") = false := by decide
example : find_title (s2c "===([[x]])===") = true := by decide

example :
    find_list_content_start (srcStartLit ++ s2c "Foo" ++ rb2 ++ s2c "bar" ++ rb2) =
      some (s2c "Foo" ++ rb2 ++ s2c "bar") := by decide
example : find_list_content_start (srcStartLit ++ rb2) = none := by decide
example :
    find_list_content_start (s2c "x" ++ srcStartLit ++ s2c "Foo" ++ rb2 ++ s2c "y") =
      some (s2c "Foo") := by decide

example :
    scanDocument [s2c "a", srcStartLit ++ s2c "Foo" ++ rb2, s2c "l1", s2c "==H==",
      s2c "l2", srcEndLit, s2c "b"] = [(s2c "Foo", [s2c "l1", s2c "l2"])] := by decide
example :
    scanDocument [srcStartLit ++ s2c "Foo" ++ rb2, s2c "l1"] = [] := by decide
example :
    scanDocument [srcStartLit ++ s2c "Foo" ++ rb2, srcStartLit ++ s2c "Bar" ++ rb2,
      srcEndLit] = [(s2c "Foo", [srcStartLit ++ s2c "Bar" ++ rb2])] := by decide

example :
    add_to_list [s2c "y"] (s2c "T") [s2c "==Other==", s2c "x"] =
      [s2c "==T==", s2c "y"] := by decide
example :
    add_to_list [] (s2c "T") [s2c "==T==", s2c "x", s2c "==U==", s2c "y"] = [] := by decide
example :
    add_to_list [] (s2c "T") [s2c "a", s2c "==T==", s2c "x", s2c "==U==", s2c "y"] =
      [s2c "a", s2c "==U==", s2c "y"] := by decide
example :
    add_to_list [] (s2c "T") [s2c "a", s2c "==T==", s2c "b"] = [s2c "a"] := by decide
example :
    add_to_list [s2c "n1", s2c "n2"] (s2c "T")
        [s2c "a", s2c "==T==", s2c "x", s2c "==U==", s2c "y"] =
      [s2c "a", s2c "==U==", s2c "y", s2c "==T==", s2c "n1", s2c "n2"] := by decide

example :
    renderText exStore
        (joinNl [s2c "pre", mkOpen (s2c "Sectioned") (s2c "A"), s2c "old stuff",
          mkClose (s2c "Sectioned"), s2c "post"]) =
      joinNl [s2c "pre", mkOpen (s2c "Sectioned") (s2c "A"), s2c "===([[T]])===",
        s2c "banana", s2c "apple", s2c "===([[U]])===", s2c "cherry",
        mkClose (s2c "Sectioned"), s2c "post"] := by decide

example :
    renderText exStore
        (joinNl [mkOpen (s2c "Alphabetical") (s2c "A"), s2c "z",
          mkClose (s2c "Alphabetical")]) =
      joinNl [mkOpen (s2c "Alphabetical") (s2c "A"), s2c "apple", s2c "banana",
        s2c "cherry", mkClose (s2c "Alphabetical")] := by decide

example :
    renderText exStore
        (joinNl [mkOpen (s2c "Sectioned") (s2c "A"), s2c "body",
          mkClose (s2c "Alphabetical")]) =
      joinNl [mkOpen (s2c "Sectioned") (s2c "A"), [],
        mkClose (s2c "Alphabetical")] := by decide

example :
    renderText exStore
        (joinNl [mkOpen (s2c "Bogus") (s2c "A"), s2c "body", mkClose (s2c "Bogus")]) =
      joinNl [mkOpen (s2c "Bogus") (s2c "A"), [], mkClose (s2c "Bogus")] := by decide

example :
    renderText exStore
        (joinNl [mkOpen (s2c "Alphabetical") (s2c "B"), [],
          mkClose (s2c "Alphabetical"), mkOpen (s2c "Alphabetical") (s2c "A"), [],
          mkClose (s2c "Alphabetical")]) =
      joinNl [mkOpen (s2c "Alphabetical") (s2c "B"), s2c "b1", s2c "b2",
        mkClose (s2c "Alphabetical")] := by decide

example :
    renderText exStore (s2c "just text\nwith " ++ mkOpen (s2c "Alphabetical") (s2c "A")
        ++ s2c " but no close") =
      s2c "just text\nwith " ++ mkOpen (s2c "Alphabetical") (s2c "A")
        ++ s2c " but no close" := by decide

example :
    renderText exStore
        (joinNl [renderLit ++ s2c "AStart|x" ++ rb2 ++ s2c "blahStart|yy" ++ rb2,
          s2c "z",
          renderLit ++ s2c "QEnd" ++ rb2 ++ s2c "tail" ++ renderLit ++ s2c "REnd"
            ++ rb2 ++ s2c "after"]) =
      joinNl [renderLit ++ s2c "AStart|x" ++ rb2 ++ s2c "blahStart|yy" ++ rb2, [],
        renderLit ++ s2c "REnd" ++ rb2 ++ s2c "after"] := by decide

example :
    renderText exStore
        (joinNl [s2c "pre " ++ renderLit ++ s2c "SStart|A" ++ rb2 ++ s2c " mid "
            ++ renderLit ++ s2c "SEnd" ++ rb2,
          s2c "xx " ++ renderLit ++ s2c "SEnd" ++ rb2 ++ s2c " yy"]) =
      joinNl [s2c "pre " ++ renderLit ++ s2c "SStart|A" ++ rb2 ++ s2c " mid "
          ++ renderLit ++ s2c "SEnd" ++ rb2, [],
        renderLit ++ s2c "SEnd" ++ rb2 ++ s2c " yy"] := by decide

/-! ### Helper lemmas for the scanner -/

/-- Scanning a concatenation: the blocks of the first part, then the
blocks of the second part started from the carried-over state. -/
theorem scanB_append (st : Option (List Char) × List (List Char))
    (xs ys : List (List Char)) :
    scanB st (xs ++ ys) = scanB st xs ++ scanB (scanStateB st xs) ys := by
  induction xs generalizing st with
  | nil => simp [scanB, scanStateB]
  | cons l xs ih =>
    rcases st with ⟨_ | name, acc⟩
    · simpa [scanB, scanStateB] using ih _
    · by_cases h1 : find_list_content_end l <;> by_cases h2 : find_title l <;>
        simp [scanB, scanStateB, h1, h2, ih]

/-- Inside a block, if no remaining line carries the end marker, the
scanner emits nothing at all. -/
theorem scanB_no_end (name : List Char) (acc ys : List (List Char))
    (h : ∀ l ∈ ys, find_list_content_end l = false) :
    scanB (some name, acc) ys = [] := by
  induction ys generalizing acc with
  | nil => rfl
  | cons l ys ih =>
    have hl : find_list_content_end l = false := h l (List.mem_cons_self l ys)
    have hys : ∀ l' ∈ ys, find_list_content_end l' = false :=
      fun l' hm => h l' (List.mem_cons_of_mem l hm)
    by_cases h2 : find_title l <;> simp [scanB, hl, h2, ih _ hys]

/-- The last element surviving a fold that keeps overwriting. -/
theorem foldl_keep_last {α : Type} (l : List α) (a : α) :
    l.foldl (fun _ t => t) a = l.getLastD a := by
  induction l generalizing a with
  | nil => rfl
  | cons x xs ih => rw [List.foldl_cons, List.getLastD_cons]; exact ih x

/-! ### Claim theorems (first batch) -/

/-- Claim C8 (confirmed): a content block opened by a start marker with
no content-end marker on any later line is discarded: the scan of the
whole document emits exactly the blocks of the prefix, so no
ContentBlock (and hence no aggregate upsert) is produced for the opened
block. -/
theorem C8_unterminated_block_discarded (pre rest : List (List Char))
    (name : List Char) (acc : List (List Char))
    (hst : scanStateB (none, []) pre = (some name, acc))
    (hrest : ∀ l ∈ rest, find_list_content_end l = false) :
    scanDocument (pre ++ rest) = scanDocument pre := by
  unfold scanDocument
  rw [scanB_append, hst, scanB_no_end name acc rest hrest, List.append_nil]

/-- Witness for C8 at a concrete document: `{{ListGenBot-SourceStart|Foo}}`
followed by one ordinary line and end of input. -/
theorem C8_witness :
    scanStateB (none, []) [srcStartLit ++ s2c "Foo" ++ rb2] = (some (s2c "Foo"), []) ∧
    (∀ l ∈ [s2c "l1"], find_list_content_end l = false) ∧
    scanDocument ([srcStartLit ++ s2c "Foo" ++ rb2] ++ [s2c "l1"]) =
      scanDocument [srcStartLit ++ s2c "Foo" ++ rb2] :=
  ⟨by decide, by decide,
    C8_unterminated_block_discarded [srcStartLit ++ s2c "Foo" ++ rb2] [s2c "l1"]
      (s2c "Foo") [] (by decide) (by decide)⟩

/-- Claim C9 (confirmed): `run` stores the empty string when the
enumerator returned fewer than `PAGES_TO_GO_THROUGH` titles, and the
last title of the batch when it returned exactly that many. -/
theorem C9_cursor_update (titles : List (List Char)) :
    (titles.length < PAGES_TO_GO_THROUGH → run_cursor titles = []) ∧
    (titles.length = PAGES_TO_GO_THROUGH → run_cursor titles = titles.getLastD []) := by
  constructor
  · intro h
    simp [run_cursor, h]
  · intro h
    unfold run_cursor
    rw [foldl_keep_last, if_neg (by omega)]

/-- Witness for C9: a one-title batch wraps the cursor to the empty
string; a 25-title batch stores its last title. -/
theorem C9_witness :
    run_cursor [s2c "A"] = [] ∧
    run_cursor (List.replicate 24 (s2c "A") ++ [s2c "Z"]) = s2c "Z" := by
  constructor
  · exact (C9_cursor_update [s2c "A"]).1 (by decide)
  · have h := (C9_cursor_update (List.replicate 24 (s2c "A") ++ [s2c "Z"])).2 (by decide)
    rw [h]; decide

/-- Claim C10 (confirmed): a line that matches the content-start marker
but is neither a content-end marker nor a heading, encountered while the
scanner is inside a block, is appended verbatim to the accumulator and
the scanner stays inside the same block under the original name. -/
theorem C10_nested_start_appended (name : List Char)
    (acc : List (List Char)) (line : List Char) (rest : List (List Char))
    (_hstart : (find_list_content_start line).isSome = true)
    (hend : find_list_content_end line = false)
    (htitle : find_title line = false) :
    scanB (some name, acc) (line :: rest) = scanB (some name, acc ++ [line]) rest := by
  simp [scanB, hend, htitle]

/-- Witness for C10: a second start marker inside an open `Foo` block is
accumulated as an ordinary line, and the block still closes under `Foo`. -/
theorem C10_witness :
    (find_list_content_start (srcStartLit ++ s2c "Bar" ++ rb2)).isSome = true ∧
    find_list_content_end (srcStartLit ++ s2c "Bar" ++ rb2) = false ∧
    find_title (srcStartLit ++ s2c "Bar" ++ rb2) = false ∧
    scanB (some (s2c "Foo"), []) ((srcStartLit ++ s2c "Bar" ++ rb2) :: [srcEndLit]) =
      scanB (some (s2c "Foo"), [srcStartLit ++ s2c "Bar" ++ rb2]) [srcEndLit] :=
  ⟨by decide, by decide, by decide,
    C10_nested_start_appended (s2c "Foo") [] (srcStartLit ++ s2c "Bar" ++ rb2)
      [srcEndLit] (by decide) (by decide) (by decide)⟩

/-- Claim C2 (code bug): `main_function` assigns `page.text = new_text`
BEFORE the dirty check `if page.text != new_text`, so the check always
compares the rendered text with itself and `page.save('Render lists')`
never runs - even on a page whose rendered text differs from its stored
text, as the concrete page `P` below shows. -/
theorem C2_render_never_persisted :
    (∀ (store : List Char → List Char) (title : List Char),
        (main_render_step store title).2 = false) ∧
    renderText
        (fun name =>
          if name == s2c "P" then
            joinNl [mkOpen (s2c "Alphabetical") (s2c "L"), s2c "old",
              mkClose (s2c "Alphabetical")]
          else if name == s2c "ListGenBot L" then s2c "a"
          else [])
        (joinNl [mkOpen (s2c "Alphabetical") (s2c "L"), s2c "old",
          mkClose (s2c "Alphabetical")]) ≠
      joinNl [mkOpen (s2c "Alphabetical") (s2c "L"), s2c "old",
        mkClose (s2c "Alphabetical")] := by
  constructor
  · intro store title
    simp [main_render_step]
  · decide

/-- Claim C3 (code bug): when the section heading `==T==` is NOT a line
of the aggregate, the loop leaves `start = end = None` and the branch
`del page_lines[start:]` executes `del page_lines[None:]`, deleting
EVERY existing line; the new content is then appended to the emptied
document.  The claim's promised no-deletion result is different. -/
theorem C3_missing_heading_wipes_aggregate :
    (s2c "==T==" ∉ [s2c "==Other==", s2c "x"]) ∧
    add_to_list [s2c "y"] (s2c "T") [s2c "==Other==", s2c "x"] =
      [s2c "==T==", s2c "y"] ∧
    add_to_list [s2c "y"] (s2c "T") [s2c "==Other==", s2c "x"] ≠
      [s2c "==Other==", s2c "x", s2c "==T==", s2c "y"] := by
  refine ⟨by decide, by decide, by decide⟩

/-- Claim C4 (code bug): when the target heading is the FIRST line of
the aggregate, `start = 0` is falsy in `elif start and ...`, no `end` is
ever recorded, and `del page_lines[0:]` deletes the whole document -
including the following `==U==` section the claim promises to keep. -/
theorem C4_heading_at_index_zero_wipes_following_sections :
    add_to_list [] (s2c "T") [s2c "==T==", s2c "x", s2c "==U==", s2c "y"] = [] ∧
    ([] : List (List Char)) ≠ [s2c "==U==", s2c "y"] := by
  refine ⟨by decide, by decide⟩

/-- Claim C6 (code bug): upsert is NOT idempotent.  With empty new
content and the heading at a positive index, the first call truncates
from the heading onward (leaving `a`), and the second call - now not
finding the heading at all - wipes the remaining document via
`del page_lines[None:]`. -/
theorem C6_upsert_not_idempotent :
    add_to_list_text [] (s2c "T") (joinNl [s2c "a", s2c "==T==", s2c "b"]) = s2c "a" ∧
    add_to_list_text [] (s2c "T")
        (add_to_list_text [] (s2c "T") (joinNl [s2c "a", s2c "==T==", s2c "b"])) = [] ∧
    add_to_list_text [] (s2c "T")
        (add_to_list_text [] (s2c "T") (joinNl [s2c "a", s2c "==T==", s2c "b"])) ≠
      add_to_list_text [] (s2c "T") (joinNl [s2c "a", s2c "==T==", s2c "b"]) := by
  refine ⟨by decide, by decide, by decide⟩

/-- Claim C1, counterexample: a mismatched directive
(`SectionedStart` / `AlphabeticalEnd`) is NOT left byte-identical: the
render pass discards the body line. -/
theorem C1_counterexample :
    renderText exStore
        (joinNl [mkOpen (s2c "Sectioned") (s2c "X"), s2c "body",
          mkClose (s2c "Alphabetical")]) ≠
      joinNl [mkOpen (s2c "Sectioned") (s2c "X"), s2c "body",
        mkClose (s2c "Alphabetical")] := by
  decide

/-- Claim C5, counterexample: two well-formed directives in one document
are NOT substituted independently: rendering their concatenation differs
from concatenating their renderings (the single greedy match runs from
the first open marker to the LAST close marker, destroying the second
directive). -/
theorem C5_counterexample :
    renderText exStore
        (joinNl [mkOpen (s2c "Alphabetical") (s2c "B"), [],
            mkClose (s2c "Alphabetical")] ++ '\n' ::
          joinNl [mkOpen (s2c "Alphabetical") (s2c "A"), [],
            mkClose (s2c "Alphabetical")]) ≠
      renderText exStore
          (joinNl [mkOpen (s2c "Alphabetical") (s2c "B"), [],
            mkClose (s2c "Alphabetical")]) ++ '\n' ::
        renderText exStore
          (joinNl [mkOpen (s2c "Alphabetical") (s2c "A"), [],
            mkClose (s2c "Alphabetical")]) := by
  decide

/-! ### Specification lemmas for the search primitives -/

theorem dropLit_some {lit s t : List Char} (h : dropLit lit s = some t) :
    s = lit ++ t := by
  induction lit generalizing s with
  | nil =>
    simp [dropLit] at h
    simp [h]
  | cons c cs ih =>
    cases s with
    | nil => simp [dropLit] at h
    | cons d ds =>
      by_cases hc : c = d
      · subst hc
        simp only [dropLit, if_pos rfl] at h
        simp [ih h]
      · simp [dropLit, hc] at h

theorem dropLit_append (lit t : List Char) : dropLit lit (lit ++ t) = some t := by
  induction lit with
  | nil => rfl
  | cons c cs ih => simp [dropLit, ih]

theorem dropLit_isSome_iff {lit s : List Char} :
    (dropLit lit s).isSome = true ↔ ∃ t, s = lit ++ t := by
  constructor
  · intro h
    rcases Option.isSome_iff_exists.1 h with ⟨t, ht⟩
    exact ⟨t, dropLit_some ht⟩
  · rintro ⟨t, rfl⟩
    rw [dropLit_append]
    rfl

theorem splitFirstSuf_shape {P : List Char → Bool} {l a b : List Char}
    (h : splitFirstSuf P l = some (a, b)) :
    l = a ++ b ∧ P b = true ∧
      ∀ a' b', l = a' ++ b' → a'.length < a.length → P b' = false := by
  induction l generalizing a with
  | nil =>
    by_cases hp : P []
    · simp [splitFirstSuf, hp] at h
      obtain ⟨rfl, rfl⟩ := h
      refine ⟨rfl, hp, ?_⟩
      intro a' b' _ hl
      simp at hl
    · simp [splitFirstSuf, hp] at h
  | cons c cs ih =>
    by_cases hp : P (c :: cs)
    · simp [splitFirstSuf, hp] at h
      obtain ⟨rfl, rfl⟩ := h
      refine ⟨rfl, hp, ?_⟩
      intro a' b' _ hl
      simp at hl
    · simp only [splitFirstSuf, if_neg hp] at h
      cases hsp : splitFirstSuf P cs with
      | none => rw [hsp] at h; exact absurd h (by simp)
      | some ab =>
        obtain ⟨a2, b2⟩ := ab
        rw [hsp] at h
        simp only [Option.some.injEq, Prod.mk.injEq] at h
        obtain ⟨rfl, rfl⟩ := h
        obtain ⟨he, hb, hmin⟩ := ih hsp
        refine ⟨by simp [he], hb, ?_⟩
        intro a' b' hab hl
        cases a' with
        | nil =>
          simp only [List.nil_append] at hab
          rw [← hab]
          simpa using hp
        | cons d ds =>
          simp only [List.cons_append, List.cons.injEq] at hab
          exact hmin ds b' hab.2 (by simpa using hl)

theorem splitFirstSuf_none {P : List Char → Bool} {l : List Char}
    (h : splitFirstSuf P l = none) :
    ∀ a b, l = a ++ b → P b = false := by
  induction l with
  | nil =>
    intro a b hab
    obtain ⟨rfl, rfl⟩ := List.append_eq_nil.mp hab.symm
    by_cases hp : P []
    · simp [splitFirstSuf, hp] at h
    · simpa using hp
  | cons c cs ih =>
    intro a b hab
    by_cases hp : P (c :: cs)
    · simp [splitFirstSuf, hp] at h
    · simp only [splitFirstSuf, if_neg hp] at h
      cases hsp : splitFirstSuf P cs with
      | some ab => rw [hsp] at h; simp at h
      | none =>
        cases a with
        | nil =>
          simp only [List.nil_append] at hab
          rw [← hab]
          simpa using hp
        | cons d ds =>
          simp only [List.cons_append, List.cons.injEq] at hab
          exact ih hsp ds b hab.2

theorem splitFirstSuf_determined {P : List Char → Bool} {a b : List Char}
    (hb : P b = true)
    (hmin : ∀ a' b', a ++ b = a' ++ b' → a'.length < a.length → P b' = false) :
    splitFirstSuf P (a ++ b) = some (a, b) := by
  induction a with
  | nil =>
    cases b with
    | nil => simp [splitFirstSuf, hb]
    | cons c cs => simp [splitFirstSuf, hb]
  | cons c a ih =>
    have h0 : P (c :: (a ++ b)) = false := by
      have := hmin [] (c :: (a ++ b)) (by simp) (by simp)
      simpa using this
    have ih' := ih (fun a' b' hab hl =>
      hmin (c :: a') b' (by simp [hab]) (by simpa using Nat.succ_lt_succ hl))
    simp [splitFirstSuf, h0, ih']

theorem splitLastSuf_none {P : List Char → Bool} {l : List Char}
    (h : splitLastSuf P l = none) :
    ∀ a b, l = a ++ b → P b = false := by
  induction l with
  | nil =>
    intro a b hab
    obtain ⟨rfl, rfl⟩ := List.append_eq_nil.mp hab.symm
    by_cases hp : P []
    · simp [splitLastSuf, hp] at h
    · simpa using hp
  | cons c cs ih =>
    intro a b hab
    cases hsp : splitLastSuf P cs with
    | some ab => simp only [splitLastSuf, hsp] at h; simp at h
    | none =>
      simp only [splitLastSuf, hsp] at h
      by_cases hp : P (c :: cs)
      · rw [if_pos hp] at h; simp at h
      · cases a with
        | nil =>
          simp only [List.nil_append] at hab
          rw [← hab]
          simpa using hp
        | cons d ds =>
          simp only [List.cons_append, List.cons.injEq] at hab
          exact ih hsp ds b hab.2

theorem splitLastSuf_shape {P : List Char → Bool} {l a b : List Char}
    (h : splitLastSuf P l = some (a, b)) :
    l = a ++ b ∧ P b = true ∧
      ∀ a' b', l = a' ++ b' → a.length < a'.length → P b' = false := by
  induction l generalizing a with
  | nil =>
    by_cases hp : P []
    · simp [splitLastSuf, hp] at h
      obtain ⟨rfl, rfl⟩ := h
      refine ⟨rfl, hp, ?_⟩
      intro a' b' hab hl
      obtain ⟨rfl, rfl⟩ := List.append_eq_nil.mp hab.symm
      simp at hl
    · simp [splitLastSuf, hp] at h
  | cons c cs ih =>
    cases hsp : splitLastSuf P cs with
    | some ab =>
      obtain ⟨a2, b2⟩ := ab
      simp only [splitLastSuf, hsp, Option.some.injEq, Prod.mk.injEq] at h
      obtain ⟨rfl, rfl⟩ := h
      obtain ⟨he, hb, hmax⟩ := ih hsp
      refine ⟨by simp [he], hb, ?_⟩
      intro a' b' hab hl
      cases a' with
      | nil => simp at hl
      | cons d ds =>
        simp only [List.cons_append, List.cons.injEq] at hab
        exact hmax ds b' hab.2 (by simpa using hl)
    | none =>
      simp only [splitLastSuf, hsp] at h
      by_cases hp : P (c :: cs)
      · rw [if_pos hp] at h
        simp only [Option.some.injEq, Prod.mk.injEq] at h
        obtain ⟨rfl, rfl⟩ := h
        refine ⟨rfl, hp, ?_⟩
        intro a' b' hab hl
        cases a' with
        | nil => simp at hl
        | cons d ds =>
          simp only [List.cons_append, List.cons.injEq] at hab
          exact splitLastSuf_none hsp ds b' hab.2
      · rw [if_neg hp] at h
        exact absurd h (by simp)

theorem splitLastSuf_none_determined {P : List Char → Bool} {l : List Char}
    (hall : ∀ a b, l = a ++ b → P b = false) :
    splitLastSuf P l = none := by
  induction l with
  | nil => simp [splitLastSuf, hall [] [] rfl]
  | cons c cs ih =>
    have hcs : splitLastSuf P cs = none :=
      ih (fun a b hab => hall (c :: a) b (by simp [hab]))
    simp [splitLastSuf, hcs, hall [] (c :: cs) rfl]

theorem splitLastSuf_determined {P : List Char → Bool} {a b : List Char}
    (hb : P b = true)
    (hmax : ∀ a' b', a ++ b = a' ++ b' → a.length < a'.length → P b' = false) :
    splitLastSuf P (a ++ b) = some (a, b) := by
  induction a with
  | nil =>
    simp only [List.nil_append]
    cases b with
    | nil => simp [splitLastSuf, hb]
    | cons c cs =>
      have hcs : splitLastSuf P cs = none :=
        splitLastSuf_none_determined
          (fun a' b' hab => hmax (c :: a') b' (by simp [hab]) (by simp))
      simp [splitLastSuf, hcs, hb]
  | cons c a ih =>
    have ih' := ih (fun a' b' hab hl =>
      hmax (c :: a') b' (by simp [hab]) (by simpa using Nat.succ_lt_succ hl))
    simp [splitLastSuf, ih']

theorem splitFirstSat_shape {α : Type} {P : α → Bool} {l a b : List α} {x : α}
    (h : splitFirstSat P l = some (a, x, b)) :
    l = a ++ x :: b ∧ P x = true ∧ ∀ y ∈ a, P y = false := by
  induction l generalizing a with
  | nil => simp [splitFirstSat] at h
  | cons c cs ih =>
    by_cases hp : P c
    · simp [splitFirstSat, hp] at h
      obtain ⟨rfl, rfl, rfl⟩ := h
      exact ⟨rfl, hp, by simp⟩
    · simp only [splitFirstSat, if_neg hp] at h
      cases hsp : splitFirstSat P cs with
      | none => rw [hsp] at h; simp at h
      | some ayb =>
        obtain ⟨a2, y2, b2⟩ := ayb
        rw [hsp] at h
        simp only [Option.some.injEq, Prod.mk.injEq] at h
        obtain ⟨rfl, rfl, rfl⟩ := h
        obtain ⟨he, hx, ha⟩ := ih hsp
        refine ⟨by simp [he], hx, ?_⟩
        intro y hy
        rcases List.mem_cons.mp hy with rfl | hy
        · simpa using hp
        · exact ha y hy

theorem splitFirstSat_determined {α : Type} {P : α → Bool} {a b : List α} {x : α}
    (hx : P x = true) (ha : ∀ y ∈ a, P y = false) :
    splitFirstSat P (a ++ x :: b) = some (a, x, b) := by
  induction a with
  | nil => simp [splitFirstSat, hx]
  | cons c a ih =>
    have hc : P c = false := ha c (List.mem_cons_self c a)
    have ih' := ih (fun y hy => ha y (List.mem_cons_of_mem c hy))
    simp [splitFirstSat, hc, ih']

theorem splitLastSat_none_determined {α : Type} {P : α → Bool} {l : List α}
    (hall : ∀ y ∈ l, P y = false) :
    splitLastSat P l = none := by
  induction l with
  | nil => rfl
  | cons c cs ih =>
    have hcs := ih (fun y hy => hall y (List.mem_cons_of_mem c hy))
    simp [splitLastSat, hcs, hall c (List.mem_cons_self c cs)]

theorem splitLastSat_shape_none_mem {α : Type} {P : α → Bool} {l : List α}
    (h : splitLastSat P l = none) : ∀ y ∈ l, P y = false := by
  induction l with
  | nil => intro y hy; simp at hy
  | cons c cs ih =>
    intro y hy
    cases hsp : splitLastSat P cs with
    | some ayb => simp [splitLastSat, hsp] at h
    | none =>
      simp only [splitLastSat, hsp] at h
      by_cases hp : P c
      · rw [if_pos hp] at h; simp at h
      · rcases List.mem_cons.mp hy with rfl | hy
        · simpa using hp
        · exact ih hsp y hy

theorem splitLastSat_shape {α : Type} {P : α → Bool} {l a b : List α} {x : α}
    (h : splitLastSat P l = some (a, x, b)) :
    l = a ++ x :: b ∧ P x = true ∧ ∀ y ∈ b, P y = false := by
  induction l generalizing a with
  | nil => simp [splitLastSat] at h
  | cons c cs ih =>
    cases hsp : splitLastSat P cs with
    | some ayb =>
      obtain ⟨a2, y2, b2⟩ := ayb
      simp only [splitLastSat, hsp, Option.some.injEq, Prod.mk.injEq] at h
      obtain ⟨rfl, rfl, rfl⟩ := h
      obtain ⟨he, hx, hb⟩ := ih hsp
      exact ⟨by simp [he], hx, hb⟩
    | none =>
      simp only [splitLastSat, hsp] at h
      by_cases hp : P c
      · rw [if_pos hp] at h
        simp only [Option.some.injEq, Prod.mk.injEq] at h
        obtain ⟨rfl, rfl, rfl⟩ := h
        exact ⟨rfl, hp, splitLastSat_shape_none_mem hsp⟩
      · rw [if_neg hp] at h
        simp at h

theorem splitLastSat_determined {α : Type} {P : α → Bool} {a b : List α} {x : α}
    (hx : P x = true) (hb : ∀ y ∈ b, P y = false) :
    splitLastSat P (a ++ x :: b) = some (a, x, b) := by
  induction a with
  | nil =>
    have hbn : splitLastSat P b = none := splitLastSat_none_determined hb
    simp [splitLastSat, hbn, hx]
  | cons c a ih =>
    simp [splitLastSat, ih]

/-! ### Specification lemmas for the marker parsers -/

theorem g3Split_shape {s y z : List Char} (h : g3Split s = some (y, z)) :
    s = y ++ (rb2 ++ z) ∧ y ≠ [] ∧
      ∀ u v, s = u ++ (rb2 ++ v) → u.length ≤ y.length := by
  unfold g3Split at h
  cases hsp : splitLastSuf (fun t => (dropLit rb2 t).isSome) s with
  | none => simp only [hsp] at h; exact absurd h (by simp)
  | some ab =>
    obtain ⟨y2, b⟩ := ab
    simp only [hsp] at h
    cases hd : dropLit rb2 b with
    | none => simp only [hd] at h; exact absurd h (by simp)
    | some z2 =>
      simp only [hd] at h
      by_cases hy : y2.isEmpty = true
      · simp only [if_pos hy] at h
        exact absurd h (by simp)
      · simp only [if_neg hy] at h
        obtain ⟨rfl, rfl⟩ := h
        obtain ⟨he, _, hmax⟩ := splitLastSuf_shape hsp
        refine ⟨by rw [he, dropLit_some hd], by simpa using hy, ?_⟩
        intro u v huv
        by_contra hc
        have := hmax u (rb2 ++ v) huv (by omega)
        simp [dropLit_append] at this

theorem g3Split_determined (y z : List Char) (hy : y ≠ [])
    (hmax : ∀ u v, y ++ (rb2 ++ z) = u ++ (rb2 ++ v) → u.length ≤ y.length) :
    g3Split (y ++ (rb2 ++ z)) = some (y, z) := by
  have hsp : splitLastSuf (fun t => (dropLit rb2 t).isSome) (y ++ (rb2 ++ z)) =
      some (y, rb2 ++ z) := by
    apply splitLastSuf_determined (by simp [dropLit_append])
    intro a' b' hab hl
    cases hd : dropLit rb2 b' with
    | none => simp [hd]
    | some t =>
      exfalso
      have hb' := dropLit_some hd
      have := hmax a' t (by rw [hab, hb'])
      omega
  have h0 : y.isEmpty = false := by cases y <;> simp_all
  unfold g3Split
  simp only [hsp, dropLit_append, h0]
  simp

theorem g3Split_isSome_of (y z : List Char) {s : List Char}
    (he : s = y ++ (rb2 ++ z)) (hy : y ≠ []) :
    (g3Split s).isSome = true := by
  subst he
  have hex : (splitLastSuf (fun t => (dropLit rb2 t).isSome) (y ++ (rb2 ++ z))).isSome = true := by
    cases hq : splitLastSuf (fun t => (dropLit rb2 t).isSome) (y ++ (rb2 ++ z)) with
    | none =>
      have := splitLastSuf_none hq y (rb2 ++ z) rfl
      simp [dropLit_append] at this
    | some _ => rfl
  obtain ⟨⟨y2, b⟩, hq⟩ := Option.isSome_iff_exists.mp hex
  obtain ⟨_, hPb, hmax⟩ := splitLastSuf_shape hq
  obtain ⟨t, hbt⟩ := dropLit_isSome_iff.mp (by simpa using hPb)
  have hy2 : y.length ≤ y2.length := by
    by_contra hc
    have := hmax y (rb2 ++ z) rfl (by omega)
    simp [dropLit_append] at this
  have h0 : y2.isEmpty = false := by
    have : 1 ≤ y.length := by cases y <;> simp_all
    cases y2 <;> simp_all
  unfold g3Split
  simp only [hq, hbt, dropLit_append, h0]
  simp

theorem startValid_iff {s : List Char} :
    startValid s = true ↔ ∃ y z, s = startSep ++ (y ++ (rb2 ++ z)) ∧ y ≠ [] := by
  unfold startValid
  constructor
  · intro h
    cases hd : dropLit startSep s with
    | none => simp only [hd] at h; exact absurd h (by simp)
    | some t =>
      simp only [hd] at h
      obtain ⟨⟨y, z⟩, hg⟩ := Option.isSome_iff_exists.mp h
      obtain ⟨ht, hy, _⟩ := g3Split_shape hg
      exact ⟨y, z, by rw [dropLit_some hd, ht], hy⟩
  · rintro ⟨y, z, rfl, hy⟩
    simp only [dropLit_append]
    exact g3Split_isSome_of y z rfl hy

theorem startValid_mono (z' : List Char) {s : List Char} (h : startValid s = true) :
    startValid (s ++ z') = true := by
  obtain ⟨y, z, rfl, hy⟩ := startValid_iff.mp h
  exact startValid_iff.mpr ⟨y, z ++ z', by simp, hy⟩

theorem g2Split_shape {t x y z : List Char} (h : g2Split t = some (x, y, z)) :
    t = x ++ (startSep ++ (y ++ (rb2 ++ z))) ∧ y ≠ [] ∧
      (∀ x' b', t = x' ++ b' → x.length < x'.length → startValid b' = false) ∧
      (∀ u v, y ++ (rb2 ++ z) = u ++ (rb2 ++ v) → u.length ≤ y.length) := by
  unfold g2Split at h
  cases hsp : splitLastSuf startValid t with
  | none => simp only [hsp] at h; exact absurd h (by simp)
  | some ab =>
    obtain ⟨x2, b⟩ := ab
    simp only [hsp] at h
    cases hd : dropLit startSep b with
    | none => simp only [hd] at h; exact absurd h (by simp)
    | some t2 =>
      simp only [hd] at h
      cases hg : g3Split t2 with
      | none => simp only [hg] at h; exact absurd h (by simp)
      | some yz =>
        obtain ⟨y2, z2⟩ := yz
        simp only [hg, Option.some.injEq, Prod.mk.injEq] at h
        obtain ⟨rfl, rfl, rfl⟩ := h
        obtain ⟨he, hPb, hmax⟩ := splitLastSuf_shape hsp
        obtain ⟨ht2, hy, hmaxy⟩ := g3Split_shape hg
        refine ⟨by rw [he, dropLit_some hd, ht2], hy, hmax, ?_⟩
        rw [← ht2]
        exact hmaxy

theorem g2Split_isSome_of (x y z : List Char) {t : List Char}
    (he : t = x ++ (startSep ++ (y ++ (rb2 ++ z)))) (hy : y ≠ []) :
    (g2Split t).isSome = true := by
  subst he
  have hsv : startValid (startSep ++ (y ++ (rb2 ++ z))) = true :=
    startValid_iff.mpr ⟨y, z, rfl, hy⟩
  have hex : (splitLastSuf startValid (x ++ (startSep ++ (y ++ (rb2 ++ z))))).isSome = true := by
    cases hq : splitLastSuf startValid (x ++ (startSep ++ (y ++ (rb2 ++ z)))) with
    | none =>
      have := splitLastSuf_none hq x (startSep ++ (y ++ (rb2 ++ z))) rfl
      simp [hsv] at this
    | some _ => rfl
  obtain ⟨⟨x2, b⟩, hq⟩ := Option.isSome_iff_exists.mp hex
  obtain ⟨_, hPb, _⟩ := splitLastSuf_shape hq
  unfold startValid at hPb
  cases hd : dropLit startSep b with
  | none => simp only [hd] at hPb; exact absurd hPb (by simp)
  | some t2 =>
    simp only [hd] at hPb
    cases hg : g3Split t2 with
    | none => simp [hg] at hPb
    | some yz =>
      unfold g2Split
      obtain ⟨y2, z2⟩ := yz
      simp only [hq, hd, hg]
      rfl

theorem openValid_iff {s : List Char} :
    openValid s = true ↔
      ∃ x y z, s = renderLit ++ (x ++ (startSep ++ (y ++ (rb2 ++ z)))) ∧ y ≠ [] := by
  unfold openValid
  constructor
  · intro h
    cases hd : dropLit renderLit s with
    | none => simp only [hd] at h; exact absurd h (by simp)
    | some t =>
      simp only [hd] at h
      obtain ⟨⟨x, y, z⟩, hg⟩ := Option.isSome_iff_exists.mp h
      obtain ⟨ht, hy, _, _⟩ := g2Split_shape hg
      exact ⟨x, y, z, by rw [dropLit_some hd, ht], hy⟩
  · rintro ⟨x, y, z, rfl, hy⟩
    simp only [dropLit_append]
    exact g2Split_isSome_of x y z rfl hy

theorem openValid_mono (z' : List Char) {s : List Char} (h : openValid s = true) :
    openValid (s ++ z') = true := by
  obtain ⟨x, y, z, rfl, hy⟩ := openValid_iff.mp h
  exact openValid_iff.mpr ⟨x, y, z ++ z', by simp, hy⟩

theorem endValid_iff {s : List Char} :
    endValid s = true ↔ ∃ w z, s = renderLit ++ (w ++ (endTag ++ z)) := by
  unfold endValid
  constructor
  · intro h
    cases hd : dropLit renderLit s with
    | none => simp only [hd] at h; exact absurd h (by simp)
    | some t =>
      simp only [hd] at h
      cases hsp : splitLastSuf (fun u => (dropLit endTag u).isSome) t with
      | none => simp only [hsp] at h; exact absurd h (by simp)
      | some ab =>
        obtain ⟨w, u⟩ := ab
        obtain ⟨ht, hPu, _⟩ := splitLastSuf_shape hsp
        obtain ⟨z, hz⟩ := dropLit_isSome_iff.mp (by simpa using hPu)
        exact ⟨w, z, by rw [dropLit_some hd, ht, hz]⟩
  · rintro ⟨w, z, rfl⟩
    simp only [dropLit_append]
    cases hq : splitLastSuf (fun u => (dropLit endTag u).isSome) (w ++ (endTag ++ z)) with
    | none =>
      have := splitLastSuf_none hq w (endTag ++ z) rfl
      simp [dropLit_append] at this
    | some _ => rfl

theorem openParse_shape {line a x y z : List Char}
    (h : openParse line = some (a, x, y, z)) :
    line = a ++ (renderLit ++ (x ++ (startSep ++ (y ++ (rb2 ++ z))))) ∧ y ≠ [] ∧
      (∀ a' b', line = a' ++ b' → a'.length < a.length → openValid b' = false) ∧
      (∀ x' b', x ++ (startSep ++ (y ++ (rb2 ++ z))) = x' ++ b' →
        x.length < x'.length → startValid b' = false) ∧
      (∀ u v, y ++ (rb2 ++ z) = u ++ (rb2 ++ v) → u.length ≤ y.length) := by
  unfold openParse at h
  cases hsp : splitFirstSuf openValid line with
  | none => simp only [hsp] at h; exact absurd h (by simp)
  | some ab =>
    obtain ⟨a2, b⟩ := ab
    simp only [hsp] at h
    cases hd : dropLit renderLit b with
    | none => simp only [hd] at h; exact absurd h (by simp)
    | some t =>
      simp only [hd] at h
      cases hg : g2Split t with
      | none => simp only [hg] at h; exact absurd h (by simp)
      | some xyz =>
        obtain ⟨x2, y2, z2⟩ := xyz
        simp only [hg, Option.some.injEq, Prod.mk.injEq] at h
        obtain ⟨rfl, rfl, rfl, rfl⟩ := h
        obtain ⟨he, _, hmin⟩ := splitFirstSuf_shape hsp
        obtain ⟨ht, hy, hmaxx, hmaxy⟩ := g2Split_shape hg
        refine ⟨by rw [he, dropLit_some hd, ht], hy, hmin, ?_, hmaxy⟩
        rw [← ht]
        exact hmaxx

theorem closeParse_shape {line a w z : List Char}
    (h : closeParse line = some (a, w, z)) :
    line = a ++ (renderLit ++ (w ++ (endTag ++ z))) ∧
      (∀ a' b', line = a' ++ b' → a.length < a'.length → endValid b' = false) ∧
      (∀ u v, w ++ (endTag ++ z) = u ++ (endTag ++ v) → u.length ≤ w.length) := by
  unfold closeParse at h
  cases hsp : splitLastSuf endValid line with
  | none => simp only [hsp] at h; exact absurd h (by simp)
  | some ab =>
    obtain ⟨a2, b⟩ := ab
    simp only [hsp] at h
    cases hd : dropLit renderLit b with
    | none => simp only [hd] at h; exact absurd h (by simp)
    | some t =>
      simp only [hd] at h
      cases hsp2 : splitLastSuf (fun u => (dropLit endTag u).isSome) t with
      | none => simp only [hsp2] at h; exact absurd h (by simp)
      | some wu =>
        obtain ⟨w2, u⟩ := wu
        simp only [hsp2] at h
        cases hd2 : dropLit endTag u with
        | none => simp only [hd2] at h; exact absurd h (by simp)
        | some z2 =>
          simp only [hd2, Option.some.injEq, Prod.mk.injEq] at h
          obtain ⟨rfl, rfl, rfl⟩ := h
          obtain ⟨he, _, hmax⟩ := splitLastSuf_shape hsp
          obtain ⟨ht, _, hmax2⟩ := splitLastSuf_shape hsp2
          refine ⟨by rw [he, dropLit_some hd, ht, dropLit_some hd2], hmax, ?_⟩
          intro u' v huv
          by_contra hc
          have htw : t = u' ++ (endTag ++ v) := by
            rw [ht, dropLit_some hd2, huv]
          have := hmax2 u' (endTag ++ v) htw (by omega)
          simp [dropLit_append] at this

theorem openParse_trunc {line a x y z : List Char}
    (h : openParse line = some (a, x, y, z)) :
    openParse (a ++ (renderLit ++ (x ++ (startSep ++ (y ++ rb2))))) = some (a, x, y, []) := by
  obtain ⟨hline, hy, hmin, hmaxx, hmaxy⟩ := openParse_shape h
  have hnz : (a ++ (renderLit ++ (x ++ (startSep ++ (y ++ rb2))))) ++ z = line := by
    rw [hline]
    simp [List.append_assoc]
  have h1 : splitFirstSuf openValid (a ++ (renderLit ++ (x ++ (startSep ++ (y ++ rb2))))) =
      some (a, renderLit ++ (x ++ (startSep ++ (y ++ rb2)))) := by
    apply splitFirstSuf_determined
    · exact openValid_iff.mpr ⟨x, y, [], by simp, hy⟩
    · intro a' b' hab hl
      cases ho : openValid b' with
      | false => rfl
      | true =>
        exfalso
        have hmono : openValid (b' ++ z) = true := openValid_mono z ho
        have hsplit : line = a' ++ (b' ++ z) := by
          rw [← hnz, hab]
          simp [List.append_assoc]
        have := hmin a' (b' ++ z) hsplit hl
        rw [this] at hmono
        exact absurd hmono (by simp)
  have hm : ∀ u v, y ++ (rb2 ++ []) = u ++ (rb2 ++ v) → u.length ≤ y.length := by
    intro u v huv
    apply hmaxy u (v ++ z)
    have := congrArg (fun w => w ++ z) huv
    simpa [List.append_assoc] using this
  have h3 : g3Split (y ++ rb2) = some (y, []) := by
    have := g3Split_determined y [] hy hm
    simpa using this
  have h4 : splitLastSuf startValid (x ++ (startSep ++ (y ++ rb2))) =
      some (x, startSep ++ (y ++ rb2)) := by
    apply splitLastSuf_determined
    · exact startValid_iff.mpr ⟨y, [], by simp, hy⟩
    · intro x' b' hab hl
      cases hs : startValid b' with
      | false => rfl
      | true =>
        exfalso
        have hmono := startValid_mono z hs
        have hsplit : x ++ (startSep ++ (y ++ (rb2 ++ z))) = x' ++ (b' ++ z) := by
          have := congrArg (fun w => w ++ z) hab
          simpa [List.append_assoc] using this
        have := hmaxx x' (b' ++ z) hsplit hl
        rw [this] at hmono
        exact absurd hmono (by simp)
  have h2 : g2Split (x ++ (startSep ++ (y ++ rb2))) = some (x, y, []) := by
    unfold g2Split
    simp only [h4, dropLit_append, h3]
  unfold openParse
  simp only [h1, dropLit_append, h2]

theorem closeParse_trunc {line a w z : List Char}
    (h : closeParse line = some (a, w, z)) :
    closeParse (renderLit ++ (w ++ (endTag ++ z))) = some ([], w, z) := by
  obtain ⟨hline, hmax, hmaxw⟩ := closeParse_shape h
  have h1 : splitLastSuf endValid ([] ++ (renderLit ++ (w ++ (endTag ++ z)))) =
      some ([], renderLit ++ (w ++ (endTag ++ z))) := by
    apply splitLastSuf_determined
    · exact endValid_iff.mpr ⟨w, z, rfl⟩
    · intro a' b' hab hl
      cases he : endValid b' with
      | false => rfl
      | true =>
        exfalso
        simp only [List.nil_append] at hab
        have hsplit : line = (a ++ a') ++ b' := by
          rw [hline, hab]
          simp [List.append_assoc]
        have hlen : a.length < (a ++ a').length := by
          simp only [List.length_append]
          simp only [List.length_nil] at hl
          omega
        have := hmax (a ++ a') b' hsplit hlen
        rw [this] at he
        exact absurd he (by simp)
  simp only [List.nil_append] at h1
  have h2 : splitLastSuf (fun u => (dropLit endTag u).isSome) (w ++ (endTag ++ z)) =
      some (w, endTag ++ z) := by
    apply splitLastSuf_determined (by simp [dropLit_append])
    intro u' b' hab hl
    cases hd : dropLit endTag b' with
    | none => simp [hd]
    | some v =>
      exfalso
      have := hmaxw u' v (by rw [hab, dropLit_some hd])
      omega
  unfold closeParse
  simp only [h1, dropLit_append, h2]

/-! ### Specification of `findMatch` and idempotence of the render pass -/

theorem findMatch_spec {ls : List (List Char)} {m : RMatch} (h : findMatch ls = some m) :
    ∃ openLine closeLine,
      openParse openLine = some (m.openPre, m.g2, m.g3, m.openRest) ∧
      closeParse closeLine = some (m.closePre, m.g5, m.closeSuf) ∧
      ls = m.preLines ++ openLine :: (m.midLines ++ closeLine :: m.postLines) ∧
      (∀ l ∈ m.preLines, openOcc l = false) ∧
      (∀ l ∈ m.postLines, closeOcc l = false) := by
  unfold findMatch at h
  cases h1 : splitLastSat closeOcc ls with
  | none => simp only [h1] at h; exact absurd h (by simp)
  | some acb =>
    obtain ⟨beforeC, closeLine, post⟩ := acb
    simp only [h1] at h
    cases h2 : splitFirstSat openOcc beforeC with
    | none => simp only [h2] at h; exact absurd h (by simp)
    | some aob =>
      obtain ⟨pre, openLine, mid⟩ := aob
      simp only [h2] at h
      cases h3 : openParse openLine with
      | none => simp only [h3] at h; exact absurd h (by simp)
      | some q =>
        obtain ⟨a, x, y, r⟩ := q
        cases h4 : closeParse closeLine with
        | none => simp only [h3, h4] at h; exact absurd h (by simp)
        | some q2 =>
          obtain ⟨cp, w, cs2⟩ := q2
          simp only [h3, h4] at h
          have hm := Option.some.inj h
          subst hm
          obtain ⟨he1, _, hpost⟩ := splitLastSat_shape h1
          obtain ⟨he2, _, hpre⟩ := splitFirstSat_shape h2
          refine ⟨openLine, closeLine, h3, h4, ?_, hpre, hpost⟩
          rw [he1, he2]
          simp [List.append_assoc]

theorem findMatch_after {ls : List (List Char)} {m : RMatch}
    (h : findMatch ls = some m) :
    findMatch (m.closeSuf :: m.postLines) = none := by
  obtain ⟨ol, cl, hOP, hCP, hls, hpre, hpost⟩ := findMatch_spec h
  have hnoend : ∀ u v, m.closeSuf ≠ u ++ (endTag ++ v) := by
    intro u v huv
    obtain ⟨_, _, hmaxw⟩ := closeParse_shape hCP
    have := hmaxw (m.g5 ++ (endTag ++ u)) v (by rw [huv]; simp [List.append_assoc])
    simp only [List.length_append] at this
    have h5 : endTag.length = 5 := rfl
    omega
  have hcs : closeOcc m.closeSuf = false := by
    cases hc : closeOcc m.closeSuf with
    | false => rfl
    | true =>
      exfalso
      unfold closeOcc at hc
      obtain ⟨⟨a, w, z⟩, hq⟩ := Option.isSome_iff_exists.mp hc
      obtain ⟨hshape, _, _⟩ := closeParse_shape hq
      exact hnoend (a ++ (renderLit ++ w)) z (by rw [hshape]; simp [List.append_assoc])
  have hall : ∀ l ∈ m.closeSuf :: m.postLines, closeOcc l = false := by
    intro l hl
    rcases List.mem_cons.mp hl with rfl | hl
    · exact hcs
    · exact hpost l hl
  unfold findMatch
  rw [splitLastSat_none_determined hall]

theorem findMatch_out {ls : List (List Char)} {m : RMatch}
    (h : findMatch ls = some m) (mid : List (List Char)) :
    findMatch (m.preLines ++ (m.openPre ++ g1Of m) ::
        (mid ++ (g4Of m ++ m.closeSuf) :: m.postLines)) =
      some ⟨m.preLines, m.openPre, m.g2, m.g3, [], mid, [], m.g5, m.closeSuf,
        m.postLines⟩ := by
  obtain ⟨ol, cl, hOP, hCP, hls, hpre, hpost⟩ := findMatch_spec h
  have hop' : openParse (m.openPre ++ g1Of m) = some (m.openPre, m.g2, m.g3, []) := by
    have hthis := openParse_trunc hOP
    have he : m.openPre ++ g1Of m =
        m.openPre ++ (renderLit ++ (m.g2 ++ (startSep ++ (m.g3 ++ rb2)))) := by
      unfold g1Of
      simp [List.append_assoc]
    rw [he]
    exact hthis
  have hcp' : closeParse (g4Of m ++ m.closeSuf) = some ([], m.g5, m.closeSuf) := by
    have hthis := closeParse_trunc hCP
    have he : g4Of m ++ m.closeSuf = renderLit ++ (m.g5 ++ (endTag ++ m.closeSuf)) := by
      unfold g4Of
      simp [List.append_assoc]
    rw [he]
    exact hthis
  have hco : closeOcc (g4Of m ++ m.closeSuf) = true := by
    unfold closeOcc
    rw [hcp']
    rfl
  have hoo : openOcc (m.openPre ++ g1Of m) = true := by
    unfold openOcc
    rw [hop']
    rfl
  have he : m.preLines ++ (m.openPre ++ g1Of m) ::
      (mid ++ (g4Of m ++ m.closeSuf) :: m.postLines) =
      (m.preLines ++ (m.openPre ++ g1Of m) :: mid) ++
        (g4Of m ++ m.closeSuf) :: m.postLines := by
    simp [List.append_assoc]
  have h1 : splitLastSat closeOcc
      (m.preLines ++ (m.openPre ++ g1Of m) ::
        (mid ++ (g4Of m ++ m.closeSuf) :: m.postLines)) =
      some (m.preLines ++ (m.openPre ++ g1Of m) :: mid, g4Of m ++ m.closeSuf,
        m.postLines) := by
    rw [he]
    exact splitLastSat_determined hco hpost
  have h2 : splitFirstSat openOcc (m.preLines ++ (m.openPre ++ g1Of m) :: mid) =
      some (m.preLines, m.openPre ++ g1Of m, mid) :=
    splitFirstSat_determined hoo hpre
  unfold findMatch
  simp only [h1, h2, hop', hcp']

theorem renderGo_of_none {store : List Char → List Char} {ls : List (List Char)}
    (h : findMatch ls = none) : ∀ f, renderGo store f ls = ls := by
  intro f
  cases f with
  | zero => rfl
  | succ f => simp only [renderGo, h]

theorem renderGo_succ_of_some {store : List Char → List Char} {ls : List (List Char)}
    {m : RMatch} (h : findMatch ls = some m) (f : Nat) :
    renderGo store (f + 1) ls =
      m.preLines ++ (m.openPre ++ g1Of m) ::
        (replMid store m ++ (g4Of m ++ m.closeSuf) :: m.postLines) := by
  have hrest : renderGo store f (m.closeSuf :: m.postLines) = m.closeSuf :: m.postLines :=
    renderGo_of_none (findMatch_after h) f
  simp only [renderGo, h, hrest]

theorem renderLines_of_some {store : List Char → List Char} {ls : List (List Char)}
    {m : RMatch} (h : findMatch ls = some m) :
    renderLines store ls =
      m.preLines ++ (m.openPre ++ g1Of m) ::
        (replMid store m ++ (g4Of m ++ m.closeSuf) :: m.postLines) := by
  unfold renderLines
  exact renderGo_succ_of_some h ls.length

theorem renderLines_of_none {store : List Char → List Char} {ls : List (List Char)}
    (h : findMatch ls = none) : renderLines store ls = ls :=
  renderGo_of_none h _

theorem renderLines_idem (store : List Char → List Char) (ls : List (List Char)) :
    renderLines store (renderLines store ls) = renderLines store ls := by
  cases h : findMatch ls with
  | none => rw [renderLines_of_none h, renderLines_of_none h]
  | some m =>
    rw [renderLines_of_some h]
    have h2 := findMatch_out h (replMid store m)
    rw [renderLines_of_some h2]
    rfl

/-! ### Lines-text round trip and newline-freeness -/

theorem splitNl_ne_nil (t : List Char) : splitNl t ≠ [] := by
  cases t with
  | nil => simp [splitNl]
  | cons c rest =>
    unfold splitNl
    by_cases hc : c = '\n'
    · simp [hc]
    · simp only [if_neg hc]
      cases h : splitNl rest <;> simp

theorem noNl_mem_splitNl (t : List Char) : ∀ l ∈ splitNl t, '\n' ∉ l := by
  induction t with
  | nil =>
    intro l hl
    simp [splitNl] at hl
    simp [hl]
  | cons c rest ih =>
    intro l hl
    unfold splitNl at hl
    by_cases hc : c = '\n'
    · simp only [if_pos hc] at hl
      rcases List.mem_cons.mp hl with rfl | hl
      · simp
      · exact ih l hl
    · simp only [if_neg hc] at hl
      cases h : splitNl rest with
      | nil => exact absurd h (splitNl_ne_nil rest)
      | cons h0 t0 =>
        rw [h] at hl
        rcases List.mem_cons.mp hl with rfl | hl
        · intro hmem
          rcases List.mem_cons.mp hmem with h' | h'
          · exact hc h'.symm
          · exact ih h0 (by rw [h]; exact List.mem_cons_self h0 t0) h'
        · exact ih l (by rw [h]; exact List.mem_cons_of_mem h0 hl)

theorem splitNl_no_nl {l : List Char} (h : '\n' ∉ l) : splitNl l = [l] := by
  induction l with
  | nil => rfl
  | cons c cs ih =>
    have hc : ¬ c = '\n' := fun he => h (he ▸ List.mem_cons_self c cs)
    unfold splitNl
    rw [if_neg hc, ih (fun hm => h (List.mem_cons_of_mem c hm))]

theorem splitNl_append_no_nl {l : List Char} (h : '\n' ∉ l) (rest : List Char) :
    splitNl (l ++ '\n' :: rest) = l :: splitNl rest := by
  induction l with
  | nil => simp [splitNl]
  | cons c cs ih =>
    have hc : ¬ c = '\n' := fun he => h (he ▸ List.mem_cons_self c cs)
    have ih' := ih (fun hm => h (List.mem_cons_of_mem c hm))
    simp only [List.cons_append, splitNl, if_neg hc, List.append_eq, ih']

theorem splitNl_joinNl {ls : List (List Char)} (h1 : ls ≠ [])
    (h2 : ∀ l ∈ ls, '\n' ∉ l) : splitNl (joinNl ls) = ls := by
  induction ls with
  | nil => exact absurd rfl h1
  | cons l ls ih =>
    cases ls with
    | nil => exact splitNl_no_nl (h2 l (List.mem_cons_self l []))
    | cons l2 t =>
      simp only [joinNl]
      rw [splitNl_append_no_nl (h2 l (List.mem_cons_self l (l2 :: t))) _,
        ih (by simp) (fun x hx => h2 x (List.mem_cons_of_mem l hx))]

theorem mem_insertLex {x y : List Char} {l : List (List Char)}
    (h : x ∈ insertLex y l) : x = y ∨ x ∈ l := by
  induction l with
  | nil => simp only [insertLex, List.mem_singleton] at h; exact Or.inl h
  | cons z zs ih =>
    unfold insertLex at h
    by_cases hc : lexLt y z = true
    · rw [if_pos hc] at h
      rcases List.mem_cons.mp h with rfl | h
      · exact Or.inl rfl
      · exact Or.inr h
    · rw [if_neg hc] at h
      rcases List.mem_cons.mp h with rfl | h
      · exact Or.inr (List.mem_cons_self x zs)
      · rcases ih h with he | h
        · exact Or.inl he
        · exact Or.inr (List.mem_cons_of_mem z h)

theorem mem_sortLex {x : List Char} {l : List (List Char)}
    (h : x ∈ sortLex l) : x ∈ l := by
  induction l with
  | nil => simp [sortLex] at h
  | cons z zs ih =>
    unfold sortLex at h
    simp only [List.foldr_cons] at h
    rcases mem_insertLex h with rfl | h
    · exact List.mem_cons_self x zs
    · exact List.mem_cons_of_mem z (ih h)

theorem mem_strip_eq {c : Char} {l : List Char} (h : c ∈ strip_eq l) : c ∈ l := by
  unfold strip_eq at h
  rw [List.mem_reverse] at h
  have h2 := (List.dropWhile_sublist (fun x => x = '=')).subset h
  rw [List.mem_reverse] at h2
  exact (List.dropWhile_sublist (fun x => x = '=')).subset h2

theorem noNl_sectionedXform {l : List Char} (h : '\n' ∉ l) :
    '\n' ∉ sectionedXform l := by
  unfold sectionedXform
  by_cases ht : find_title l
  · rw [if_pos ht]
    intro hm
    rcases List.mem_append.mp hm with hm | hm
    · rcases List.mem_append.mp hm with hm | hm
      · exact absurd hm (by decide)
      · exact h (mem_strip_eq hm)
    · exact absurd hm (by decide)
  · rw [if_neg ht]
    exact h

theorem noNl_render_list_body (store : List Char → List Char) (g2 g3 : List Char) :
    ∀ l ∈ render_list_body store g2 g3, '\n' ∉ l := by
  intro l hl
  unfold render_list_body at hl
  by_cases h1 : (g2 == s2c "Sectioned") = true
  · rw [if_pos h1] at hl
    obtain ⟨l0, hl0, rfl⟩ := List.mem_map.mp hl
    exact noNl_sectionedXform (noNl_mem_splitNl _ l0 hl0)
  · rw [if_neg h1] at hl
    by_cases h2 : (g2 == s2c "Alphabetical") = true
    · rw [if_pos h2] at hl
      have := mem_sortLex hl
      have := List.mem_filter.mp this
      exact noNl_mem_splitNl _ l this.1
    · rw [if_neg h2] at hl
      simp at hl

theorem renderLines_ne_nil {store : List Char → List Char} {ls : List (List Char)}
    (h : ls ≠ []) : renderLines store ls ≠ [] := by
  cases hm : findMatch ls with
  | none => rw [renderLines_of_none hm]; exact h
  | some m => rw [renderLines_of_some hm]; simp

theorem renderLines_no_nl {store : List Char → List Char} {ls : List (List Char)}
    (h : ∀ l ∈ ls, '\n' ∉ l) : ∀ l ∈ renderLines store ls, '\n' ∉ l := by
  cases hm : findMatch ls with
  | none => rw [renderLines_of_none hm]; exact h
  | some m =>
    rw [renderLines_of_some hm]
    obtain ⟨ol, cl, hOP, hCP, hls, _, _⟩ := findMatch_spec hm
    obtain ⟨hol, _, _, _, _⟩ := openParse_shape hOP
    obtain ⟨hcl, _, _⟩ := closeParse_shape hCP
    have hOLnl : '\n' ∉ ol := h ol (by rw [hls]; simp)
    have hCLnl : '\n' ∉ cl := h cl (by rw [hls]; simp)
    have hopre : '\n' ∉ m.openPre := fun hx => hOLnl (by rw [hol]; simp [hx])
    have hg2 : '\n' ∉ m.g2 := fun hx => hOLnl (by rw [hol]; simp [hx])
    have hg3 : '\n' ∉ m.g3 := fun hx => hOLnl (by rw [hol]; simp [hx])
    have hg5 : '\n' ∉ m.g5 := fun hx => hCLnl (by rw [hcl]; simp [hx])
    have hcsuf : '\n' ∉ m.closeSuf := fun hx => hCLnl (by rw [hcl]; simp [hx])
    have hg1 : '\n' ∉ g1Of m := by
      unfold g1Of
      intro hx
      simp only [List.mem_append] at hx
      rcases hx with (((hx | hx) | hx) | hx) | hx
      · exact absurd hx (by decide)
      · exact hg2 hx
      · exact absurd hx (by decide)
      · exact hg3 hx
      · exact absurd hx (by decide)
    have hg4 : '\n' ∉ g4Of m := by
      unfold g4Of
      intro hx
      simp only [List.mem_append] at hx
      rcases hx with (hx | hx) | hx
      · exact absurd hx (by decide)
      · exact hg5 hx
      · exact absurd hx (by decide)
    intro l hl
    rcases List.mem_append.mp hl with hl | hl
    · exact h l (by rw [hls]; simp [hl])
    rcases List.mem_cons.mp hl with rfl | hl
    · intro hx
      rcases List.mem_append.mp hx with hx | hx
      · exact hopre hx
      · exact hg1 hx
    rcases List.mem_append.mp hl with hl | hl
    · unfold replMid at hl
      by_cases hpl : (if m.g2 == m.g5 then render_list_body store m.g2 m.g3 else
          ([] : List (List Char))).isEmpty = true
      · rw [if_pos hpl] at hl
        rcases List.mem_cons.mp hl with rfl | hl
        · simp
        · simp at hl
      · rw [if_neg hpl] at hl
        by_cases hgg : (m.g2 == m.g5) = true
        · rw [if_pos hgg] at hl
          exact noNl_render_list_body store m.g2 m.g3 l hl
        · refine absurd ?_ hpl
          rw [if_neg hgg]
          rfl
    rcases List.mem_cons.mp hl with rfl | hl
    · intro hx
      rcases List.mem_append.mp hx with hx | hx
      · exact hg4 hx
      · exact hcsuf hx
    · exact h l (by rw [hls]; simp [hl])

/-! ### Claim theorems (render pass) -/

/-- Claim C7 (confirmed): for a fixed store snapshot, running the render
pass twice over any document text yields the same text as running it
once.  The single greedy match of the second pass re-finds exactly the
lines spliced in by the first pass and replaces them with themselves. -/
theorem C7_render_idempotent (store : List Char → List Char) (t : List Char) :
    renderText store (renderText store t) = renderText store t := by
  unfold renderText
  rw [splitNl_joinNl (renderLines_ne_nil (splitNl_ne_nil t))
    (renderLines_no_nl (noNl_mem_splitNl t))]
  rw [renderLines_idem]

/-- Claim C1, amended (the span is NOT left byte-identical): when the
open-marker mode differs from the close-marker mode, the render pass
still substitutes: the whole matched span is replaced by the open
marker, one empty line, and the close marker - the existing body (the
rest of the open line, all intermediate lines, and the close line's
part before the marker) is discarded. -/
theorem C1_amended_mismatch_discards_body (store : List Char → List Char)
    (ls : List (List Char)) (m : RMatch) (h : findMatch ls = some m)
    (hne : m.g2 ≠ m.g5) :
    renderLines store ls =
      m.preLines ++ (m.openPre ++ g1Of m) ::
        ([] :: (g4Of m ++ m.closeSuf) :: m.postLines) := by
  rw [renderLines_of_some h]
  have hb : (m.g2 == m.g5) = false := beq_false_of_ne hne
  simp [replMid, hb]

/-- Witness for C1's amended claim at the counterexample document. -/
theorem C1_amended_witness :
    findMatch [mkOpen (s2c "Sectioned") (s2c "X"), s2c "body",
        mkClose (s2c "Alphabetical")] =
      some ⟨[], [], s2c "Sectioned", s2c "X", [], [s2c "body"], [],
        s2c "Alphabetical", [], []⟩ ∧
    s2c "Sectioned" ≠ s2c "Alphabetical" ∧
    renderLines exStore [mkOpen (s2c "Sectioned") (s2c "X"), s2c "body",
        mkClose (s2c "Alphabetical")] =
      [mkOpen (s2c "Sectioned") (s2c "X"), [], mkClose (s2c "Alphabetical")] := by
  refine ⟨by decide, by decide, ?_⟩
  have h := C1_amended_mismatch_discards_body exStore
    [mkOpen (s2c "Sectioned") (s2c "X"), s2c "body", mkClose (s2c "Alphabetical")]
    ⟨[], [], s2c "Sectioned", s2c "X", [], [s2c "body"], [], s2c "Alphabetical", [], []⟩
    (by decide) (by decide)
  rw [h]
  decide

/-- Claim C5, amended: one render pass performs exactly ONE substitution,
whose span runs from the FIRST line holding an open-marker occurrence to
the LAST line holding a close-marker occurrence (no earlier line has an
open occurrence, no later line has a close occurrence, and the text after
the close marker admits no further match).  Multiple directives are thus
merged into a single greedy match rather than substituted independently. -/
theorem C5_amended_single_greedy_match (store : List Char → List Char)
    (ls : List (List Char)) (m : RMatch) (h : findMatch ls = some m) :
    renderLines store ls =
      m.preLines ++ (m.openPre ++ g1Of m) ::
        (replMid store m ++ (g4Of m ++ m.closeSuf) :: m.postLines) ∧
    (∀ l ∈ m.preLines, openOcc l = false) ∧
    (∀ l ∈ m.postLines, closeOcc l = false) ∧
    findMatch (m.closeSuf :: m.postLines) = none := by
  obtain ⟨ol, cl, _, _, _, hpre, hpost⟩ := findMatch_spec h
  exact ⟨renderLines_of_some h, hpre, hpost, findMatch_after h⟩

/-- Witness for C5's amended claim: a document holding two well-formed
directives produces the single merged match, rendered with the first
directive's list and the last close marker. -/
theorem C5_amended_witness :
    findMatch [mkOpen (s2c "Alphabetical") (s2c "B"), [],
        mkClose (s2c "Alphabetical"), mkOpen (s2c "Alphabetical") (s2c "A"), [],
        mkClose (s2c "Alphabetical")] =
      some ⟨[], [], s2c "Alphabetical", s2c "B", [],
        [[], mkClose (s2c "Alphabetical"), mkOpen (s2c "Alphabetical") (s2c "A"), []],
        [], s2c "Alphabetical", [], []⟩ ∧
    renderLines exStore [mkOpen (s2c "Alphabetical") (s2c "B"), [],
        mkClose (s2c "Alphabetical"), mkOpen (s2c "Alphabetical") (s2c "A"), [],
        mkClose (s2c "Alphabetical")] =
      [mkOpen (s2c "Alphabetical") (s2c "B"), s2c "b1", s2c "b2",
        mkClose (s2c "Alphabetical")] := by
  refine ⟨by decide, ?_⟩
  have h := C5_amended_single_greedy_match exStore
    [mkOpen (s2c "Alphabetical") (s2c "B"), [], mkClose (s2c "Alphabetical"),
      mkOpen (s2c "Alphabetical") (s2c "A"), [], mkClose (s2c "Alphabetical")]
    ⟨[], [], s2c "Alphabetical", s2c "B", [],
      [[], mkClose (s2c "Alphabetical"), mkOpen (s2c "Alphabetical") (s2c "A"), []],
      [], s2c "Alphabetical", [], []⟩
    (by decide)
  rw [h.1]
  decide
